import Mathlib

/-!
Shallow embedding of `skimage/feature/_texture.py` (grey-level co-occurrence
matrices and local binary patterns) together with theorems checking the
natural-language specification against it.

Conventions:
* integer grey levels are `Nat`; counts are `Nat` (the uint32 histogram);
* float arithmetic is embedded as exact arithmetic, `Rat` for the GLCM
  normalization and `Real` (with `Real.sqrt`) for the property reductions
  and the LBP sampling pipeline;
* a Python function that can raise becomes `Except String`; a function with
  no raise/assert in its body returns its value directly (wrapped in
  `Except.ok` when the call site's contract is about failing or not).
-/

namespace SkimageTexture

/-! ### GLCM builder (`greycomatrix`) -/

/-- Zero-based pixel lookup at signed integer coordinates; `none` when the
coordinate falls outside the image. -/
def pixelAt (rows cols : ℕ) (image : Fin rows → Fin cols → ℕ) (r c : ℤ) : Option ℕ :=
  if h : 0 ≤ r ∧ r < (rows : ℤ) ∧ 0 ≤ c ∧ c < (cols : ℤ) then
    some (image ⟨r.toNat, by omega⟩ ⟨c.toNat, by omega⟩)
  else
    none

/-- Modelled from the spec: the accumulation kernel `_glcm_loop` (imported by
the source from `skimage.feature._greycomatrix`, not part of the repository
sources). For each offset `(d, a)` the displacement is
`(round (d * (-sin a)), round (d * cos a))`; the entry `(i, j, di, ai)` counts
the pixels `p` whose value is `i` and whose displaced partner is inside the
image with value `j`. -/
noncomputable def glcmLoop (rows cols : ℕ) (image : Fin rows → Fin cols → ℕ)
    (distances angles : List ℝ) (levels : ℕ)
    (i j : Fin levels) (di : Fin distances.length) (ai : Fin angles.length) : ℕ :=
  let d := distances.get di
  let a := angles.get ai
  let dr : ℤ := round (d * (-Real.sin a))
  let dc : ℤ := round (d * Real.cos a)
  (Finset.univ.filter fun p : Fin rows × Fin cols =>
    image p.1 p.2 = (i : ℕ) ∧
      pixelAt rows cols image ((p.1 : ℤ) + dr) ((p.2 : ℤ) + dc) = some (j : ℕ)).card

/-- Optional symmetrization: `P + transpose P` over the two level axes. -/
def glcmSym {L D A : ℕ} (C : Fin L → Fin L → Fin D → Fin A → ℕ) (symmetric : Bool) :
    Fin L → Fin L → Fin D → Fin A → ℕ :=
  if symmetric then fun i j d a => C i j d a + C j i d a else C

/-- Total count of a `(distance, angle)` slice, as a rational (float sum). -/
def glcmSums {L D A : ℕ} (C : Fin L → Fin L → Fin D → Fin A → ℕ) (d : Fin D) (a : Fin A) : ℚ :=
  ∑ i : Fin L, ∑ j : Fin L, (C i j d a : ℚ)

/-- Per-slice normalization; a slice whose sum is zero is divided by 1. -/
def glcmNormalize {L D A : ℕ} (C : Fin L → Fin L → Fin D → Fin A → ℕ) :
    Fin L → Fin L → Fin D → Fin A → ℚ :=
  fun i j d a =>
    (C i j d a : ℚ) / (if glcmSums C d a = 0 then 1 else glcmSums C d a)

/-- The `greycomatrix` entry point: validation asserts, accumulation,
optional symmetrization, optional normalization. -/
noncomputable def greycomatrix (rows cols : ℕ) (image : Fin rows → Fin cols → ℕ)
    (distances angles : List ℝ) (levels : ℕ) (symmetric normed : Bool) :
    Except String (Fin levels → Fin levels → Fin distances.length → Fin angles.length → ℚ) :=
  if levels ≤ 256 then
    if ∀ p q, image p q < levels then
      let C := glcmSym (glcmLoop rows cols image distances angles levels) symmetric
      if normed then Except.ok (glcmNormalize C)
      else Except.ok fun i j d a => (C i j d a : ℚ)
    else Except.error "image values must lie in [0, levels-1]"
  else Except.error "levels must be at most 256"

/-! ### LBP bit-level encodings -/

/-- Number of 0-1 changes over adjacent pairs of a sequence
(`np.sum(np.abs(np.diff(signed)))` for a 0/1-valued sequence). -/
def linearChanges : List ℕ → ℕ
  | [] => 0
  | [_] => 0
  | a :: b :: t => (if a = b then 0 else 1) + linearChanges (b :: t)

/-- Number of 0-1 changes around the circular sequence: the adjacent pairs
plus the wrap-around pair from the last bit back to the first. -/
def circularChanges (l : List ℕ) : ℕ :=
  match l with
  | [] => 0
  | a :: _ => linearChanges (l ++ [a])

/-- The uniform-method encoding of a thresholded bit sequence: the bit sum
when the linear change count is at most 2, else the catch-all `P + 1`. -/
def uniformCode (P : ℕ) (bits : List ℕ) : ℕ :=
  if linearChanges bits ≤ 2 then bits.sum else P + 1

/-- Cyclic bit shift to the right (`bit_rotate_right` in the source). -/
def bit_rotate_right (value length : ℕ) : ℕ :=
  (value >>> 1) ||| ((value &&& 1) <<< (length - 1))

/-- The rotation chain filled by the `ror` method:
`rotation_chain[0] = lbp`, `rotation_chain[i] = bit_rotate_right (rotation_chain[i-1], P)`. -/
def rotationChain (v P : ℕ) : ℕ → ℕ
  | 0 => v
  | i + 1 => bit_rotate_right (rotationChain v P i) P

/-- Minimum of a list of naturals (`np.min`; 0 on the empty list, which the
source never hits since `P ≥ 1`). -/
def npMin (l : List ℕ) : ℕ :=
  match l with
  | [] => 0
  | x :: xs => xs.foldl min x

/-- The `ror`-method code: minimum over the `P`-element rotation chain. -/
def rorCode (v P : ℕ) : ℕ :=
  npMin ((List.range P).map (rotationChain v P))

/-! ### GLCM property calculator (`greycoprops`) -/

/-- Contrast: the histogram weighted by squared level difference. -/
noncomputable def contrastCalc {L D A : ℕ} (P : Fin L → Fin L → Fin D → Fin A → ℝ)
    (d : Fin D) (a : Fin A) : ℝ :=
  ∑ i : Fin L, ∑ j : Fin L, P i j d a * ((i : ℝ) - (j : ℝ)) ^ 2

/-- Dissimilarity: the histogram weighted by absolute level difference. -/
noncomputable def dissimilarityCalc {L D A : ℕ} (P : Fin L → Fin L → Fin D → Fin A → ℝ)
    (d : Fin D) (a : Fin A) : ℝ :=
  ∑ i : Fin L, ∑ j : Fin L, P i j d a * |(i : ℝ) - (j : ℝ)|

/-- Homogeneity: the histogram weighted by `1 / (1 + (i - j)^2)`. -/
noncomputable def homogeneityCalc {L D A : ℕ} (P : Fin L → Fin L → Fin D → Fin A → ℝ)
    (d : Fin D) (a : Fin A) : ℝ :=
  ∑ i : Fin L, ∑ j : Fin L, P i j d a * (1 / (1 + ((i : ℝ) - (j : ℝ)) ^ 2))

/-- Angular second moment: the sum of squared histogram entries. -/
noncomputable def asmCalc {L D A : ℕ} (P : Fin L → Fin L → Fin D → Fin A → ℝ)
    (d : Fin D) (a : Fin A) : ℝ :=
  ∑ i : Fin L, ∑ j : Fin L, (P i j d a) ^ 2

/-- Energy: the square root of the angular second moment. -/
noncomputable def energyCalc {L D A : ℕ} (P : Fin L → Fin L → Fin D → Fin A → ℝ)
    (d : Fin D) (a : Fin A) : ℝ :=
  Real.sqrt (asmCalc P d a)

/-- Per-slice mean row level `mu_i`. -/
noncomputable def muI {L D A : ℕ} (P : Fin L → Fin L → Fin D → Fin A → ℝ)
    (d : Fin D) (a : Fin A) : ℝ :=
  ∑ i : Fin L, ∑ j : Fin L, (i : ℝ) * P i j d a

/-- Per-slice mean column level `mu_j`. -/
noncomputable def muJ {L D A : ℕ} (P : Fin L → Fin L → Fin D → Fin A → ℝ)
    (d : Fin D) (a : Fin A) : ℝ :=
  ∑ i : Fin L, ∑ j : Fin L, (j : ℝ) * P i j d a

/-- Per-slice row standard deviation `std_i`. -/
noncomputable def stdI {L D A : ℕ} (P : Fin L → Fin L → Fin D → Fin A → ℝ)
    (d : Fin D) (a : Fin A) : ℝ :=
  Real.sqrt (∑ i : Fin L, ∑ j : Fin L, P i j d a * ((i : ℝ) - muI P d a) ^ 2)

/-- Per-slice column standard deviation `std_j`. -/
noncomputable def stdJ {L D A : ℕ} (P : Fin L → Fin L → Fin D → Fin A → ℝ)
    (d : Fin D) (a : Fin A) : ℝ :=
  Real.sqrt (∑ i : Fin L, ∑ j : Fin L, P i j d a * ((j : ℝ) - muJ P d a) ^ 2)

/-- Per-slice covariance of the row and column levels. -/
noncomputable def covIJ {L D A : ℕ} (P : Fin L → Fin L → Fin D → Fin A → ℝ)
    (d : Fin D) (a : Fin A) : ℝ :=
  ∑ i : Fin L, ∑ j : Fin L,
    P i j d a * (((i : ℝ) - muI P d a) * ((j : ℝ) - muJ P d a))

/-- Correlation: `cov / (std_i * std_j)`, defined as 1 on the slices whose
standard deviations fall below `1e-15` (the mask special case in the source). -/
noncomputable def correlationCalc {L D A : ℕ} (P : Fin L → Fin L → Fin D → Fin A → ℝ)
    (d : Fin D) (a : Fin A) : ℝ :=
  if stdI P d a < 1e-15 ∨ stdJ P d a < 1e-15 then 1
  else covIJ P d a / (stdI P d a * stdJ P d a)

/-- The `greycoprops` entry point: shape asserts, then string dispatch on the
property tag; an unrecognized tag raises `ValueError`. -/
noncomputable def greycoprops {L D A : ℕ} (P : Fin L → Fin L → Fin D → Fin A → ℝ)
    (prop : String) : Except String (Fin D → Fin A → ℝ) :=
  if 0 < D ∧ 0 < A then
    if prop = "contrast" then Except.ok (contrastCalc P)
    else if prop = "dissimilarity" then Except.ok (dissimilarityCalc P)
    else if prop = "homogeneity" then Except.ok (homogeneityCalc P)
    else if prop = "ASM" then Except.ok (asmCalc P)
    else if prop = "energy" then Except.ok (energyCalc P)
    else if prop = "correlation" then Except.ok (correlationCalc P)
    else Except.error (prop ++ " is an invalid property")
  else Except.error "number of distances and angles must be positive"

/-- The natural number with bits `f 0, f 1, ..., f (P-1)`. -/
def ofBits (P : ℕ) (f : ℕ → Bool) : ℕ :=
  ∑ i ∈ Finset.range P, if f i then 2 ^ i else 0

/-- A cyclic right-rotation by `k` places of a `P`-bit value, written
directly from the spec: bit `i` of the result is bit `(i + k) mod P`
of the input. -/
def rotateRightSpec (P k v : ℕ) : ℕ :=
  ofBits P fun i => v.testBit ((i + k) % P)

/-! ### LBP per-pixel pipeline (`local_binary_pattern`) -/

/-- Window side length `2 * ceil R + 1`. -/
noncomputable def maxSize (R : ℝ) : ℕ := 2 * (⌈R⌉).toNat + 1

/-- Zero extension of a real-valued image to all integer coordinates. -/
noncomputable def imageExtend (rows cols : ℕ) (image : Fin rows → Fin cols → ℝ)
    (r c : ℤ) : ℝ :=
  if h : 0 ≤ r ∧ r < (rows : ℤ) ∧ 0 ≤ c ∧ c < (cols : ℤ) then
    image ⟨r.toNat, by omega⟩ ⟨c.toNat, by omega⟩
  else 0

/-- Modelled from the spec: the local window that `scipy.ndimage.generic_filter`
(size `max_size`, mode constant, cval 0) hands to `compute_lbp` at pixel
`(y, x)`, already shifted by the center pixel's value
(`texture -= texture[center_index]`, whose flattened center index addresses
cell `(ceil R, ceil R)`, i.e. the pixel itself). Outside the window range the
grid is 0, the padding value seen by `map_coordinates`. -/
noncomputable def shiftedWindow (rows cols : ℕ) (image : Fin rows → Fin cols → ℝ)
    (R : ℝ) (y : Fin rows) (x : Fin cols) : ℤ → ℤ → ℝ :=
  fun u v =>
    if 0 ≤ u ∧ u < (maxSize R : ℤ) ∧ 0 ≤ v ∧ v < (maxSize R : ℤ) then
      imageExtend rows cols image ((y : ℤ) + u - ⌈R⌉) ((x : ℤ) + v - ⌈R⌉) - image y x
    else 0

/-- Modelled from the spec: `scipy.ndimage.map_coordinates` with `order=1`,
i.e. bilinear interpolation of a zero-extended grid at real coordinates. -/
noncomputable def bilinear (g : ℤ → ℤ → ℝ) (r c : ℝ) : ℝ :=
  let r0 := ⌊r⌋
  let c0 := ⌊c⌋
  let dr := r - (r0 : ℝ)
  let dc := c - (c0 : ℝ)
  (1 - dr) * (1 - dc) * g r0 c0 + (1 - dr) * dc * g r0 (c0 + 1)
    + dr * (1 - dc) * g (r0 + 1) c0 + dr * dc * g (r0 + 1) (c0 + 1)

/-- Row coordinate of sample point `k` inside the window:
`-R * sin (2 pi k / P) + ceil R`. -/
noncomputable def sampleRow (Pn : ℕ) (R : ℝ) (k : ℕ) : ℝ :=
  -R * Real.sin (2 * Real.pi * k / Pn) + (⌈R⌉ : ℝ)

/-- Column coordinate of sample point `k` inside the window:
`R * cos (2 pi k / P) + ceil R`. -/
noncomputable def sampleCol (Pn : ℕ) (R : ℝ) (k : ℕ) : ℝ :=
  R * Real.cos (2 * Real.pi * k / Pn) + (⌈R⌉ : ℝ)

/-- The `k`-th interpolated, center-shifted neighbor value at pixel `(y, x)`. -/
noncomputable def lbpSamples (rows cols : ℕ) (image : Fin rows → Fin cols → ℝ)
    (Pn : ℕ) (R : ℝ) (y : Fin rows) (x : Fin cols) (k : ℕ) : ℝ :=
  bilinear (shiftedWindow rows cols image R y x) (sampleRow Pn R k) (sampleCol Pn R k)

/-- Thresholded texture: bit `k` is 1 exactly when the interpolated value is
at least 0 (`signed[signed >= 0] = 1; signed[signed < 0] = 0`). -/
noncomputable def lbpSignedBit (rows cols : ℕ) (image : Fin rows → Fin cols → ℝ)
    (Pn : ℕ) (R : ℝ) (y : Fin rows) (x : Fin cols) (k : ℕ) : ℕ :=
  if 0 ≤ lbpSamples rows cols image Pn R y x k then 1 else 0

/-- Variance of the interpolated neighbor values (`np.var`). -/
noncomputable def npVar (Pn : ℕ) (s : ℕ → ℝ) : ℝ :=
  (∑ k ∈ Finset.range Pn, (s k - (∑ k ∈ Finset.range Pn, s k) / (Pn : ℝ)) ^ 2) / (Pn : ℝ)

/-- The per-pixel `compute_lbp` body, dispatching on the (lowercased) method
string. Any method other than `uniform`, `var` and `ror` takes the plain
weighted-sum branch (commented `method == 'default'` in the source). -/
noncomputable def compute_lbp (rows cols : ℕ) (image : Fin rows → Fin cols → ℝ)
    (Pn : ℕ) (R : ℝ) (m : String) (y : Fin rows) (x : Fin cols) : ℝ :=
  let signed := lbpSignedBit rows cols image Pn R y x
  if m = "uniform" ∨ m = "var" then
    let lbp := uniformCode Pn ((List.range Pn).map signed)
    if m = "var" then (lbp : ℝ) / npVar Pn (lbpSamples rows cols image Pn R y x)
    else (lbp : ℝ)
  else
    let lbp := ∑ k ∈ Finset.range Pn, signed k * 2 ^ k
    if m = "ror" then (rorCode lbp Pn : ℝ) else (lbp : ℝ)

/-- Output dtype marker: `float` for the `var` method, `int` otherwise. -/
def lbpDtype (m : String) : String := if m = "var" then "float" else "int"

/-- Lowercasing of a single ASCII character (`str.lower` on method tags). -/
def charLower (c : Char) : Char :=
  if 65 ≤ c.toNat ∧ c.toNat ≤ 90 then Char.ofNat (c.toNat + 32) else c

/-- Python's `str.lower` on the (ASCII) method strings. -/
def strLower (s : String) : String := ⟨s.data.map charLower⟩

/-- The `local_binary_pattern` entry point: lowercase the method string once,
then encode every pixel; there is no validation branch, so the call never
fails. -/
noncomputable def local_binary_pattern (rows cols : ℕ) (image : Fin rows → Fin cols → ℝ)
    (Pn : ℕ) (R : ℝ) (method : String) :
    Except String (String × (Fin rows → Fin cols → ℝ)) :=
  Except.ok (lbpDtype (strLower method),
    fun y x => compute_lbp rows cols image Pn R (strLower method) y x)

/-! ### Helper lemmas -/

theorem glcmSums_cast {L D A : ℕ} (C : Fin L → Fin L → Fin D → Fin A → ℕ)
    (d : Fin D) (a : Fin A) :
    glcmSums C d a = ((∑ i : Fin L, ∑ j : Fin L, C i j d a : ℕ) : ℚ) := by
  simp [glcmSums]

theorem glcmNormalize_slice {L D A : ℕ} (C : Fin L → Fin L → Fin D → Fin A → ℕ)
    (d : Fin D) (a : Fin A) :
    (∑ i : Fin L, ∑ j : Fin L, glcmNormalize C i j d a = 1)
    ∨ (glcmSums C d a = 0 ∧ ∀ i j, glcmNormalize C i j d a = 0) := by
  by_cases h : glcmSums C d a = 0
  · right
    refine ⟨h, fun i j => ?_⟩
    have hnat : (∑ i : Fin L, ∑ j : Fin L, C i j d a) = 0 := by
      have := (glcmSums_cast C d a) ▸ h
      exact_mod_cast this
    have hz : C i j d a = 0 := by
      have h1 := (Finset.sum_eq_zero_iff.mp hnat) i (Finset.mem_univ i)
      exact (Finset.sum_eq_zero_iff.mp h1) j (Finset.mem_univ j)
    simp [glcmNormalize, hz]
  · left
    simp only [glcmNormalize, if_neg h]
    simp only [← Finset.sum_div]
    exact div_self h

/-- C3: for every image, distances, angles and levels satisfying the
preconditions, `greycomatrix` with `normed = true` returns the normalized
histogram in which each `(distance, angle)` slice sums to 1, except that a
slice whose accumulated counts sum to zero is divided by 1 instead and
remains all-zero. -/
theorem greycomatrix_normed_slices (rows cols : ℕ) (image : Fin rows → Fin cols → ℕ)
    (distances angles : List ℝ) (levels : ℕ) (symmetric : Bool)
    (h1 : levels ≤ 256) (h2 : ∀ p q, image p q < levels) :
    greycomatrix rows cols image distances angles levels symmetric true
      = Except.ok (glcmNormalize
          (glcmSym (glcmLoop rows cols image distances angles levels) symmetric))
    ∧ ∀ (di : Fin distances.length) (ai : Fin angles.length),
        (∑ i : Fin levels, ∑ j : Fin levels,
            glcmNormalize
              (glcmSym (glcmLoop rows cols image distances angles levels) symmetric)
              i j di ai = 1)
        ∨ (glcmSums (glcmSym (glcmLoop rows cols image distances angles levels) symmetric)
              di ai = 0
           ∧ ∀ i j, glcmNormalize
              (glcmSym (glcmLoop rows cols image distances angles levels) symmetric)
              i j di ai = 0) := by
  constructor
  · unfold greycomatrix
    rw [if_pos h1, if_pos h2]
    rfl
  · intro di ai
    exact glcmNormalize_slice _ di ai

/-- Witness for C3 at a concrete input: an all-zero 1x1 image with one level,
one distance and one angle. -/
theorem greycomatrix_normed_slices_witness :
    (1 ≤ 256 ∧ ∀ p q : Fin 1, (fun _ _ : Fin 1 => 0) p q < 1)
    ∧ (greycomatrix 1 1 (fun (_ _ : Fin 1) => 0) [(1 : ℝ)] [(0 : ℝ)] 1 false true
        = Except.ok (glcmNormalize
            (glcmSym (glcmLoop 1 1 (fun _ _ => 0) [(1 : ℝ)] [(0 : ℝ)] 1) false))
      ∧ ∀ (di : Fin 1) (ai : Fin 1),
        (∑ i : Fin 1, ∑ j : Fin 1,
            glcmNormalize
              (glcmSym (glcmLoop 1 1 (fun _ _ => 0) [(1 : ℝ)] [(0 : ℝ)] 1) false)
              i j di ai = 1)
        ∨ (glcmSums (glcmSym (glcmLoop 1 1 (fun _ _ => 0) [(1 : ℝ)] [(0 : ℝ)] 1) false)
              di ai = 0
           ∧ ∀ i j, glcmNormalize
              (glcmSym (glcmLoop 1 1 (fun _ _ => 0) [(1 : ℝ)] [(0 : ℝ)] 1) false)
              i j di ai = 0)) :=
  ⟨⟨by decide, by decide⟩,
    greycomatrix_normed_slices 1 1 (fun _ _ => 0) [(1 : ℝ)] [(0 : ℝ)] 1 false
      (by decide) (by decide)⟩

/-- C4: for every valid input, `greycomatrix` with `symmetric = true` returns
the accumulated histogram plus its transpose over the two level axes, so the
output (normalized or not) satisfies `G i j d a = G j i d a`. -/
theorem greycomatrix_symmetric (rows cols : ℕ) (image : Fin rows → Fin cols → ℕ)
    (distances angles : List ℝ) (levels : ℕ)
    (h1 : levels ≤ 256) (h2 : ∀ p q, image p q < levels) :
    greycomatrix rows cols image distances angles levels true false
      = Except.ok (fun i j di ai =>
          ((glcmLoop rows cols image distances angles levels i j di ai
            + glcmLoop rows cols image distances angles levels j i di ai : ℕ) : ℚ))
    ∧ ∀ (normed : Bool) G,
        greycomatrix rows cols image distances angles levels true normed = Except.ok G →
        ∀ i j di ai, G i j di ai = G j i di ai := by
  have hsym : ∀ i j di ai,
      glcmSym (glcmLoop rows cols image distances angles levels) true i j di ai
        = glcmSym (glcmLoop rows cols image distances angles levels) true j i di ai := by
    intro i j di ai
    simp [glcmSym, Nat.add_comm]
  constructor
  · unfold greycomatrix
    rw [if_pos h1, if_pos h2]
    rfl
  · intro normed G hG i j di ai
    unfold greycomatrix at hG
    rw [if_pos h1, if_pos h2] at hG
    cases normed with
    | false =>
      simp only [Bool.false_eq_true, if_false, Except.ok.injEq] at hG
      subst hG
      dsimp only
      exact_mod_cast hsym i j di ai
    | true =>
      simp only [if_true, Except.ok.injEq] at hG
      subst hG
      simp only [glcmNormalize]
      rw [hsym i j di ai]

/-- Witness for C4 at a concrete input. -/
theorem greycomatrix_symmetric_witness :
    (1 ≤ 256 ∧ ∀ p q : Fin 1, (fun _ _ : Fin 1 => 0) p q < 1)
    ∧ (greycomatrix 1 1 (fun _ _ => 0) [(1 : ℝ)] [(0 : ℝ)] 1 true false
        = Except.ok (fun i j di ai =>
            ((glcmLoop 1 1 (fun _ _ => 0) [(1 : ℝ)] [(0 : ℝ)] 1 i j di ai
              + glcmLoop 1 1 (fun _ _ => 0) [(1 : ℝ)] [(0 : ℝ)] 1 j i di ai : ℕ) : ℚ))
      ∧ ∀ (normed : Bool) G,
          greycomatrix 1 1 (fun _ _ => 0) [(1 : ℝ)] [(0 : ℝ)] 1 true normed = Except.ok G →
          ∀ i j di ai, G i j di ai = G j i di ai) :=
  ⟨⟨by decide, by decide⟩,
    greycomatrix_symmetric 1 1 (fun _ _ => 0) [(1 : ℝ)] [(0 : ℝ)] 1
      (by decide) (by decide)⟩

theorem asmCalc_nonneg {L D A : ℕ} (P : Fin L → Fin L → Fin D → Fin A → ℝ)
    (d : Fin D) (a : Fin A) : 0 ≤ asmCalc P d a :=
  Finset.sum_nonneg fun _ _ => Finset.sum_nonneg fun _ _ => sq_nonneg _

/-- Constant all-ones 1x1x1x1 histogram, used as a concrete witness input. -/
def onesHist : Fin 1 → Fin 1 → Fin 1 → Fin 1 → ℝ := fun _ _ _ _ => 1

/-- C7: for every valid 4D histogram and every slice, the energy property is
the square root of the ASM property, i.e. energy squared equals ASM. -/
theorem greycoprops_energy_asm {L D A : ℕ} (P : Fin L → Fin L → Fin D → Fin A → ℝ)
    (hD : 0 < D) (hA : 0 < A) :
    greycoprops P "energy" = Except.ok (energyCalc P)
    ∧ greycoprops P "ASM" = Except.ok (asmCalc P)
    ∧ ∀ d a, energyCalc P d a ^ 2 = asmCalc P d a := by
  refine ⟨?_, ?_, fun d a => ?_⟩
  · unfold greycoprops
    rw [if_pos ⟨hD, hA⟩]
    rfl
  · unfold greycoprops
    rw [if_pos ⟨hD, hA⟩]
    rfl
  · exact Real.sq_sqrt (asmCalc_nonneg P d a)

/-- Witness for C7 at a concrete 1x1x1x1 histogram. -/
theorem greycoprops_energy_asm_witness :
    ((0 : ℕ) < 1 ∧ (0 : ℕ) < 1)
    ∧ (greycoprops onesHist "energy" = Except.ok (energyCalc onesHist)
      ∧ greycoprops onesHist "ASM" = Except.ok (asmCalc onesHist)
      ∧ ∀ d a, energyCalc onesHist d a ^ 2 = asmCalc onesHist d a) :=
  ⟨⟨by decide, by decide⟩,
    greycoprops_energy_asm onesHist (by decide) (by decide)⟩

/-- C5: for every valid 4D histogram, `greycoprops P "correlation"` returns
exactly 1 on each slice whose standard deviation `std_i` or `std_j` is below
`1e-15`, instead of performing the covariance division there. -/
theorem greycoprops_correlation_degenerate {L D A : ℕ}
    (P : Fin L → Fin L → Fin D → Fin A → ℝ) (hD : 0 < D) (hA : 0 < A)
    (d : Fin D) (a : Fin A)
    (h : stdI P d a < 1e-15 ∨ stdJ P d a < 1e-15) :
    greycoprops P "correlation" = Except.ok (correlationCalc P)
    ∧ correlationCalc P d a = 1 := by
  constructor
  · unfold greycoprops
    rw [if_pos ⟨hD, hA⟩]
    rfl
  · unfold correlationCalc
    rw [if_pos h]

/-- Witness for C5: the constant 1x1x1x1 histogram has a degenerate slice
(both standard deviations are 0). -/
theorem greycoprops_correlation_degenerate_witness :
    ((0 : ℕ) < 1 ∧ (0 : ℕ) < 1
      ∧ (stdI onesHist 0 0 < 1e-15 ∨ stdJ onesHist 0 0 < 1e-15))
    ∧ (greycoprops onesHist "correlation" = Except.ok (correlationCalc onesHist)
      ∧ correlationCalc onesHist 0 0 = 1) := by
  have hdeg : stdI onesHist 0 0 < 1e-15 := by
    have h0 : stdI onesHist 0 0 = 0 := by
      simp [stdI, muI, onesHist]
    rw [h0]
    norm_num
  exact ⟨⟨by decide, by decide, Or.inl hdeg⟩,
    greycoprops_correlation_degenerate onesHist (by decide) (by decide)
      0 0 (Or.inl hdeg)⟩

/-- C8: on every slice of a non-negative histogram whose standard deviations
both reach the `1e-15` threshold, the correlation property lies in `[-1, 1]`. -/
theorem greycoprops_correlation_bounds {L D A : ℕ}
    (P : Fin L → Fin L → Fin D → Fin A → ℝ)
    (hP : ∀ i j d a, 0 ≤ P i j d a) (hD : 0 < D) (hA : 0 < A)
    (d : Fin D) (a : Fin A)
    (hi : 1e-15 ≤ stdI P d a) (hj : 1e-15 ≤ stdJ P d a) :
    greycoprops P "correlation" = Except.ok (correlationCalc P)
    ∧ -1 ≤ correlationCalc P d a ∧ correlationCalc P d a ≤ 1 := by
  have heps : (0 : ℝ) < 1e-15 := by norm_num
  have hIpos : 0 < stdI P d a := lt_of_lt_of_le heps hi
  have hJpos : 0 < stdJ P d a := lt_of_lt_of_le heps hj
  have hcond : ¬(stdI P d a < 1e-15 ∨ stdJ P d a < 1e-15) := by
    push_neg
    exact ⟨hi, hj⟩
  set vI := ∑ i : Fin L, ∑ j : Fin L, P i j d a * ((i : ℝ) - muI P d a) ^ 2 with hvIdef
  set vJ := ∑ i : Fin L, ∑ j : Fin L, P i j d a * ((j : ℝ) - muJ P d a) ^ 2 with hvJdef
  have hsI : stdI P d a = Real.sqrt vI := rfl
  have hsJ : stdJ P d a = Real.sqrt vJ := rfl
  have hvInn : 0 ≤ vI := by
    rw [hvIdef]
    exact Finset.sum_nonneg fun i _ => Finset.sum_nonneg fun j _ =>
      mul_nonneg (hP _ _ _ _) (sq_nonneg _)
  have key := Finset.sum_mul_sq_le_sq_mul_sq (Finset.univ : Finset (Fin L × Fin L))
    (fun p => Real.sqrt (P p.1 p.2 d a) * ((p.1 : ℝ) - muI P d a))
    (fun p => Real.sqrt (P p.1 p.2 d a) * ((p.2 : ℝ) - muJ P d a))
  have h1 : ∀ p : Fin L × Fin L,
      Real.sqrt (P p.1 p.2 d a) * ((p.1 : ℝ) - muI P d a)
        * (Real.sqrt (P p.1 p.2 d a) * ((p.2 : ℝ) - muJ P d a))
      = P p.1 p.2 d a * (((p.1 : ℝ) - muI P d a) * ((p.2 : ℝ) - muJ P d a)) := by
    intro p
    rw [mul_mul_mul_comm, Real.mul_self_sqrt (hP _ _ _ _)]
  have h2 : ∀ p : Fin L × Fin L,
      (Real.sqrt (P p.1 p.2 d a) * ((p.1 : ℝ) - muI P d a)) ^ 2
      = P p.1 p.2 d a * ((p.1 : ℝ) - muI P d a) ^ 2 := by
    intro p
    rw [mul_pow, Real.sq_sqrt (hP _ _ _ _)]
  have h3 : ∀ p : Fin L × Fin L,
      (Real.sqrt (P p.1 p.2 d a) * ((p.2 : ℝ) - muJ P d a)) ^ 2
      = P p.1 p.2 d a * ((p.2 : ℝ) - muJ P d a) ^ 2 := by
    intro p
    rw [mul_pow, Real.sq_sqrt (hP _ _ _ _)]
  simp only [h1, h2, h3, Fintype.sum_prod_type] at key
  have hkey : covIJ P d a ^ 2 ≤ vI * vJ := key
  have habs : |covIJ P d a| ≤ stdI P d a * stdJ P d a := by
    have hsIJ : stdI P d a * stdJ P d a = Real.sqrt (vI * vJ) := by
      rw [hsI, hsJ, ← Real.sqrt_mul hvInn]
    rw [hsIJ]
    calc |covIJ P d a| = Real.sqrt (covIJ P d a ^ 2) := (Real.sqrt_sq_eq_abs _).symm
      _ ≤ Real.sqrt (vI * vJ) := Real.sqrt_le_sqrt hkey
  have hcc : correlationCalc P d a = covIJ P d a / (stdI P d a * stdJ P d a) := by
    unfold correlationCalc
    rw [if_neg hcond]
  have hprod : 0 < stdI P d a * stdJ P d a := mul_pos hIpos hJpos
  have habs2 : |correlationCalc P d a| ≤ 1 := by
    rw [hcc, abs_div, abs_of_pos hprod]
    exact div_le_one_of_le₀ habs (le_of_lt hprod)
  refine ⟨?_, (abs_le.mp habs2).1, (abs_le.mp habs2).2⟩
  unfold greycoprops
  rw [if_pos ⟨hD, hA⟩]
  rfl

/-- Diagonal 2x2x1x1 histogram, a concrete non-degenerate witness input. -/
def diagHist : Fin 2 → Fin 2 → Fin 1 → Fin 1 → ℝ := fun i j _ _ => if i = j then 1 else 0

theorem diagHist_stdI : stdI diagHist 0 0 = 1 := by
  have hmu : muI diagHist 0 0 = 1 := by simp [muI, diagHist, Fin.sum_univ_two]
  unfold stdI
  rw [hmu]
  norm_num [diagHist, Fin.sum_univ_two]

theorem diagHist_stdJ : stdJ diagHist 0 0 = 1 := by
  have hmu : muJ diagHist 0 0 = 1 := by simp [muJ, diagHist, Fin.sum_univ_two]
  unfold stdJ
  rw [hmu]
  norm_num [diagHist, Fin.sum_univ_two]

theorem diagHist_nonneg : ∀ i j d a, 0 ≤ diagHist i j d a := by
  intro i j d a
  unfold diagHist
  split <;> norm_num

/-- Witness for C8 at the diagonal histogram: both standard deviations are 1,
well above the threshold. -/
theorem greycoprops_correlation_bounds_witness :
    ((∀ i j d a, 0 ≤ diagHist i j d a) ∧ (0 : ℕ) < 1 ∧ (0 : ℕ) < 1
      ∧ 1e-15 ≤ stdI diagHist 0 0 ∧ 1e-15 ≤ stdJ diagHist 0 0)
    ∧ (greycoprops diagHist "correlation" = Except.ok (correlationCalc diagHist)
      ∧ -1 ≤ correlationCalc diagHist 0 0 ∧ correlationCalc diagHist 0 0 ≤ 1) :=
  ⟨⟨diagHist_nonneg, by decide, by decide,
      by rw [diagHist_stdI]; norm_num, by rw [diagHist_stdJ]; norm_num⟩,
    greycoprops_correlation_bounds diagHist diagHist_nonneg (by decide) (by decide) 0 0
      (by rw [diagHist_stdI]; norm_num) (by rw [diagHist_stdJ]; norm_num)⟩

theorem linearChanges_append_last (a : ℕ) (l : List ℕ) (x : ℕ) :
    linearChanges ((a :: l) ++ [x])
      = linearChanges (a :: l) + (if (a :: l).getLast? = some x then 0 else 1) := by
  induction l generalizing a with
  | nil => simp [linearChanges]
  | cons b t ih =>
    have step : linearChanges ((a :: b :: t) ++ [x])
        = (if a = b then 0 else 1) + linearChanges ((b :: t) ++ [x]) := by
      simp [linearChanges]
    rw [step, ih b]
    have hlast : (a :: b :: t).getLast? = (b :: t).getLast? := List.getLast?_cons_cons ..
    rw [hlast]
    have unfoldAB : linearChanges (a :: b :: t)
        = (if a = b then 0 else 1) + linearChanges (b :: t) := rfl
    rw [unfoldAB]
    omega

theorem circularChanges_bounds (l : List ℕ) :
    linearChanges l ≤ circularChanges l ∧ circularChanges l ≤ linearChanges l + 1 := by
  cases l with
  | nil => simp [circularChanges, linearChanges]
  | cons a t =>
    have hc : circularChanges (a :: t) = linearChanges ((a :: t) ++ [a]) := rfl
    rw [hc, linearChanges_append_last]
    split <;> omega

theorem sum_eq_count_one (l : List ℕ) (h : ∀ b ∈ l, b ≤ 1) : l.sum = l.count 1 := by
  induction l with
  | nil => simp
  | cons b t ih =>
    have hb : b ≤ 1 := h b (by simp)
    have ht := ih fun x hx => h x (by simp [hx])
    interval_cases b <;> simp [List.count_cons, ht] ; omega

/-- C2: the uniform encoding counts transitions linearly over the adjacent bit
pairs, and agrees with the circular characterization: a bit sequence with
exactly two transitions around the circle encodes to its popcount, one with
four circular transitions encodes to `P + 1`. -/
theorem uniform_code_circular (Pn : ℕ) (bits : List ℕ)
    (_hlen : bits.length = Pn) (hbits : ∀ b ∈ bits, b ≤ 1) :
    (circularChanges bits = 2 → uniformCode Pn bits = bits.count 1)
    ∧ (circularChanges bits = 4 → uniformCode Pn bits = Pn + 1) := by
  obtain ⟨h1, h2⟩ := circularChanges_bounds bits
  constructor
  · intro hc
    have hlin : linearChanges bits ≤ 2 := by omega
    unfold uniformCode
    rw [if_pos hlin]
    exact sum_eq_count_one bits hbits
  · intro hc
    have hlin : ¬linearChanges bits ≤ 2 := by omega
    unfold uniformCode
    rw [if_neg hlin]

/-- Witness for C2 on the 8-bit sequence `11100000` (two circular
transitions). -/
theorem uniform_code_circular_witness :
    (([1, 1, 1, 0, 0, 0, 0, 0] : List ℕ).length = 8
      ∧ ∀ b ∈ ([1, 1, 1, 0, 0, 0, 0, 0] : List ℕ), b ≤ 1)
    ∧ ((circularChanges [1, 1, 1, 0, 0, 0, 0, 0] = 2
          → uniformCode 8 [1, 1, 1, 0, 0, 0, 0, 0] = ([1, 1, 1, 0, 0, 0, 0, 0] : List ℕ).count 1)
      ∧ (circularChanges [1, 1, 1, 0, 0, 0, 0, 0] = 4
          → uniformCode 8 [1, 1, 1, 0, 0, 0, 0, 0] = 8 + 1)) :=
  ⟨⟨by decide, by decide⟩,
    uniform_code_circular 8 [1, 1, 1, 0, 0, 0, 0, 0] (by decide) (by decide)⟩

theorem ofBits_lt (P : ℕ) (f : ℕ → Bool) : ofBits P f < 2 ^ P := by
  induction P with
  | zero => simp [ofBits]
  | succ P ih =>
    have hstep : ofBits (P + 1) f = ofBits P f + (if f P then 2 ^ P else 0) := by
      simp [ofBits, Finset.sum_range_succ]
    have h2 : (if f P then 2 ^ P else 0) ≤ 2 ^ P := by split <;> simp
    rw [hstep, pow_succ]
    omega

theorem testBit_ofBits (P : ℕ) (f : ℕ → Bool) (j : ℕ) :
    (ofBits P f).testBit j = (decide (j < P) && f j) := by
  induction P with
  | zero => simp [ofBits]
  | succ P ih =>
    have hstep : ofBits (P + 1) f = 2 ^ P * (if f P then 1 else 0) + ofBits P f := by
      rw [ofBits, Finset.sum_range_succ]
      show (ofBits P f) + _ = _
      split <;> simp [Nat.add_comm]
    rw [hstep, Nat.testBit_mul_pow_two_add _ (ofBits_lt P f) j]
    by_cases hj : j < P
    · rw [if_pos hj, ih]
      simp [hj, Nat.lt_succ_of_lt hj]
    · rw [if_neg hj]
      by_cases hjP : j = P
      · subst hjP
        rw [Nat.sub_self]
        split <;> simp_all
      · have hj1 : j - P ≠ 0 := by omega
        have hjP1 : ¬j < P + 1 := by omega
        split
        · rw [show (1 : ℕ) = 2 ^ 0 by norm_num, Nat.testBit_two_pow]
          simp [hjP1]
          omega
        · simp [hjP1]

theorem ofBits_testBit_self {P v : ℕ} (hv : v < 2 ^ P) : ofBits P v.testBit = v := by
  apply Nat.eq_of_testBit_eq
  intro j
  rw [testBit_ofBits]
  by_cases hj : j < P
  · simp [hj]
  · have hvj : v < 2 ^ j :=
      lt_of_lt_of_le hv (Nat.pow_le_pow_right (by norm_num) (by omega))
    simp [hj, Nat.testBit_lt_two_pow hvj]

theorem bit_rotate_right_eq {P v : ℕ} (hP : 0 < P) (hv : v < 2 ^ P) :
    bit_rotate_right v P = rotateRightSpec P 1 v := by
  apply Nat.eq_of_testBit_eq
  intro j
  unfold bit_rotate_right rotateRightSpec
  rw [testBit_ofBits, Nat.testBit_or, Nat.testBit_shiftRight, Nat.testBit_shiftLeft,
    Nat.and_one_is_mod, show v % 2 = v % 2 ^ 1 by norm_num, Nat.testBit_mod_two_pow]
  by_cases hj : j < P - 1
  · have h1 : ¬P - 1 ≤ j := by omega
    have h2 : (j + 1) % P = j + 1 := Nat.mod_eq_of_lt (by omega)
    simp [h1, h2, show j < P by omega, Nat.add_comm 1 j]
  · by_cases hjP : j < P
    · have hj' : j = P - 1 := by omega
      subst hj'
      have hzero : (P - 1 + 1) % P = 0 := by
        rw [show P - 1 + 1 = P by omega]
        exact Nat.mod_self P
      have hbig : Nat.testBit v (1 + (P - 1)) = false := by
        apply Nat.testBit_lt_two_pow
        calc v < 2 ^ P := hv
          _ ≤ 2 ^ (1 + (P - 1)) := by rw [show 1 + (P - 1) = P by omega]
      simp [hbig, hzero, Nat.sub_self, hjP]
    · have h1 : Nat.testBit v (1 + j) = false :=
        Nat.testBit_lt_two_pow
          (lt_of_lt_of_le hv (Nat.pow_le_pow_right (by norm_num) (by omega)))
      have h2 : ¬j - (P - 1) < 1 := by omega
      simp [h1, h2, hjP]

theorem rotateRightSpec_comp {P : ℕ} (hP : 0 < P) (k v : ℕ) :
    rotateRightSpec P 1 (rotateRightSpec P k v) = rotateRightSpec P (k + 1) v := by
  apply Nat.eq_of_testBit_eq
  intro j
  unfold rotateRightSpec
  simp only [testBit_ofBits]
  by_cases hj : j < P
  · have hm : (j + 1) % P < P := Nat.mod_lt _ hP
    have harith : ((j + 1) % P + k) % P = (j + (k + 1)) % P := by
      rw [Nat.mod_add_mod]
      congr 1
      omega
    simp [hj, hm, harith]
  · simp [hj]

theorem rotateRightSpec_zero {P v : ℕ} (hv : v < 2 ^ P) : rotateRightSpec P 0 v = v := by
  have hcong : rotateRightSpec P 0 v = ofBits P v.testBit := by
    unfold rotateRightSpec ofBits
    apply Finset.sum_congr rfl
    intro i hi
    simp [Nat.mod_eq_of_lt (Finset.mem_range.mp hi)]
  rw [hcong, ofBits_testBit_self hv]

theorem rotationChain_eq {P v : ℕ} (hP : 0 < P) (hv : v < 2 ^ P) (k : ℕ) :
    rotationChain v P k = rotateRightSpec P k v := by
  induction k with
  | zero => exact (rotateRightSpec_zero hv).symm
  | succ k ih =>
    have hlt : rotateRightSpec P k v < 2 ^ P := ofBits_lt P _
    calc rotationChain v P (k + 1) = bit_rotate_right (rotationChain v P k) P := rfl
      _ = bit_rotate_right (rotateRightSpec P k v) P := by rw [ih]
      _ = rotateRightSpec P 1 (rotateRightSpec P k v) := bit_rotate_right_eq hP hlt
      _ = rotateRightSpec P (k + 1) v := rotateRightSpec_comp hP k v

/-- C6: the `ror` code of a `P`-bit value is the minimum over all `P` cyclic
right-rotations of the value (the rotation by 0 places being the value
itself). -/
theorem ror_code_min_rotations (v Pn : ℕ) (hP : 0 < Pn) (hv : v < 2 ^ Pn) :
    rorCode v Pn = npMin ((List.range Pn).map fun k => rotateRightSpec Pn k v)
    ∧ rotateRightSpec Pn 0 v = v := by
  refine ⟨?_, rotateRightSpec_zero hv⟩
  unfold rorCode
  have hfun : rotationChain v Pn = fun k => rotateRightSpec Pn k v :=
    funext (rotationChain_eq hP hv)
  rw [hfun]

/-- Witness for C6 at the 3-bit code 6 (binary 110), whose rotations are
6, 3, 5 with minimum 3. -/
theorem ror_code_min_rotations_witness :
    (0 < 3 ∧ 6 < 2 ^ 3)
    ∧ (rorCode 6 3 = npMin ((List.range 3).map fun k => rotateRightSpec 3 k 6)
      ∧ rotateRightSpec 3 0 6 = 6) :=
  ⟨⟨by decide, by decide⟩, ror_code_min_rotations 6 3 (by decide) (by decide)⟩

/-- C10: for every method string whose lowercased form is not `ror`,
`uniform` or `var`, `local_binary_pattern` does not fail and returns exactly
the same output, with the same integer dtype, as a call with
`method = "default"`, because the method dispatch has no validation branch. -/
theorem local_binary_pattern_unknown_method (rows cols : ℕ)
    (image : Fin rows → Fin cols → ℝ) (Pn : ℕ) (R : ℝ) (method : String)
    (h : strLower method ∉ (["ror", "uniform", "var"] : List String)) :
    local_binary_pattern rows cols image Pn R method
      = local_binary_pattern rows cols image Pn R "default"
    ∧ (local_binary_pattern rows cols image Pn R method).isOk = true := by
  have h1 : strLower method ≠ "ror" := fun hh => h (by simp [hh])
  have h2 : strLower method ≠ "uniform" := fun hh => h (by simp [hh])
  have h3 : strLower method ≠ "var" := fun hh => h (by simp [hh])
  refine ⟨?_, rfl⟩
  unfold local_binary_pattern
  have hdef : strLower "default" = "default" := rfl
  rw [hdef]
  have hdtype : lbpDtype (strLower method) = lbpDtype "default" := by
    unfold lbpDtype
    rw [if_neg h3, if_neg (by decide : ¬("default" : String) = "var")]
  have hcompute : ∀ y x, compute_lbp rows cols image Pn R (strLower method) y x
      = compute_lbp rows cols image Pn R "default" y x := by
    intro y x
    unfold compute_lbp
    rw [if_neg (fun hh => Or.elim hh h2 h3),
      if_neg (by decide : ¬(("default" : String) = "uniform" ∨ ("default" : String) = "var"))]
    simp only [if_neg h1, if_neg (by decide : ¬("default" : String) = "ror")]
  exact congrArg Except.ok
    (Prod.ext hdtype (funext fun y => funext fun x => hcompute y x))

/-- Witness for C10 with the misspelled method tag `Foo`. -/
theorem local_binary_pattern_unknown_method_witness :
    strLower "Foo" ∉ (["ror", "uniform", "var"] : List String)
    ∧ (local_binary_pattern 2 2 (fun _ _ => (0 : ℝ)) 8 1 "Foo"
        = local_binary_pattern 2 2 (fun _ _ => (0 : ℝ)) 8 1 "default"
      ∧ (local_binary_pattern 2 2 (fun _ _ => (0 : ℝ)) 8 1 "Foo").isOk = true) :=
  ⟨by decide,
    local_binary_pattern_unknown_method 2 2 (fun _ _ => (0 : ℝ)) 8 1 "Foo" (by decide)⟩

/-- C1 counterexample: contrary to the claim that `local_binary_pattern`
fails for every method outside the recognized set, the call with the
unrecognized method `qux` succeeds (there is no validation branch). -/
theorem unknown_tags_counterexample :
    (local_binary_pattern 2 2 (fun _ _ => (0 : ℝ)) 8 1 "qux").isOk = true := rfl

/-- C1 (amended): `greycoprops` fails for every property tag outside the
closed set of six, while `local_binary_pattern` never fails: an unrecognized
method falls through silently. -/
theorem unknown_tags_amended {L D A : ℕ} (P : Fin L → Fin L → Fin D → Fin A → ℝ)
    (prop : String)
    (hprop : prop ∉ (["contrast", "dissimilarity", "homogeneity", "ASM",
      "energy", "correlation"] : List String)) :
    (greycoprops P prop).isOk = false
    ∧ ∀ (rows cols : ℕ) (image : Fin rows → Fin cols → ℝ) (Pn : ℕ) (R : ℝ)
        (method : String),
        (local_binary_pattern rows cols image Pn R method).isOk = true := by
  refine ⟨?_, fun _ _ _ _ _ _ => rfl⟩
  have hc : prop ≠ "contrast" := fun hh => hprop (by simp [hh])
  have hd : prop ≠ "dissimilarity" := fun hh => hprop (by simp [hh])
  have hh' : prop ≠ "homogeneity" := fun hh => hprop (by simp [hh])
  have ha : prop ≠ "ASM" := fun hh => hprop (by simp [hh])
  have he : prop ≠ "energy" := fun hh => hprop (by simp [hh])
  have hr : prop ≠ "correlation" := fun hh => hprop (by simp [hh])
  unfold greycoprops
  by_cases hDA : 0 < D ∧ 0 < A
  · rw [if_pos hDA, if_neg hc, if_neg hd, if_neg hh', if_neg ha, if_neg he, if_neg hr]
    rfl
  · rw [if_neg hDA]
    rfl

/-- Witness for the amended C1 at the unrecognized property tag `blah`. -/
theorem unknown_tags_amended_witness :
    ("blah" : String) ∉ (["contrast", "dissimilarity", "homogeneity", "ASM",
      "energy", "correlation"] : List String)
    ∧ ((greycoprops onesHist "blah").isOk = false
      ∧ ∀ (rows cols : ℕ) (image : Fin rows → Fin cols → ℝ) (Pn : ℕ) (R : ℝ)
          (method : String),
          (local_binary_pattern rows cols image Pn R method).isOk = true) :=
  ⟨by decide, unknown_tags_amended onesHist "blah" (by decide)⟩

theorem bilinear_zero (g : ℤ → ℤ → ℝ) (hg : ∀ u v, g u v = 0) (r c : ℝ) :
    bilinear g r c = 0 := by
  simp [bilinear, hg]

theorem maxSize_one : maxSize 1 = 3 := by
  simp [maxSize, Int.ceil_one]

theorem imageExtend_flat (rows cols : ℕ) (image : Fin rows → Fin cols → ℝ) (c : ℝ)
    (himg : ∀ p q, image p q = c) (r c' : ℤ)
    (hb : 0 ≤ r ∧ r < (rows : ℤ) ∧ 0 ≤ c' ∧ c' < (cols : ℤ)) :
    imageExtend rows cols image r c' = c := by
  unfold imageExtend
  rw [dif_pos hb]
  exact himg _ _

theorem shiftedWindow_flat (rows cols : ℕ) (image : Fin rows → Fin cols → ℝ) (c : ℝ)
    (himg : ∀ p q, image p q = c) (y : Fin rows) (x : Fin cols)
    (hy1 : 1 ≤ (y : ℕ)) (hy2 : (y : ℕ) + 1 < rows)
    (hx1 : 1 ≤ (x : ℕ)) (hx2 : (x : ℕ) + 1 < cols)
    (u v : ℤ) : shiftedWindow rows cols image 1 y x u v = 0 := by
  have hm : (maxSize 1 : ℤ) = 3 := by exact_mod_cast maxSize_one
  have hceil : ⌈(1 : ℝ)⌉ = 1 := Int.ceil_one
  unfold shiftedWindow
  split_ifs with h
  · rw [hm] at h
    obtain ⟨hu0, hu3, hv0, hv3⟩ := h
    have hyb : 0 ≤ (y : ℤ) + u - ⌈(1 : ℝ)⌉ ∧ (y : ℤ) + u - ⌈(1 : ℝ)⌉ < (rows : ℤ) := by
      rw [hceil]
      omega
    have hxb : 0 ≤ (x : ℤ) + v - ⌈(1 : ℝ)⌉ ∧ (x : ℤ) + v - ⌈(1 : ℝ)⌉ < (cols : ℤ) := by
      rw [hceil]
      omega
    rw [imageExtend_flat rows cols image c himg _ _ ⟨hyb.1, hyb.2, hxb.1, hxb.2⟩, himg y x]
    ring
  · rfl

theorem lbpSamples_flat (rows cols : ℕ) (image : Fin rows → Fin cols → ℝ) (c : ℝ)
    (himg : ∀ p q, image p q = c) (y : Fin rows) (x : Fin cols)
    (hy1 : 1 ≤ (y : ℕ)) (hy2 : (y : ℕ) + 1 < rows)
    (hx1 : 1 ≤ (x : ℕ)) (hx2 : (x : ℕ) + 1 < cols)
    (k : ℕ) : lbpSamples rows cols image 8 1 y x k = 0 :=
  bilinear_zero _ (shiftedWindow_flat rows cols image c himg y x hy1 hy2 hx1 hx2) _ _

/-- C9: on a perfectly flat image, `local_binary_pattern` with method
`default`, `P = 8`, `R = 1` assigns every interior pixel the code
`2 ^ 8 - 1 = 255`: every interpolated neighbor minus the center is 0, and the
`value >= 0` threshold sets all 8 bits. -/
theorem lbp_default_flat (rows cols : ℕ) (image : Fin rows → Fin cols → ℝ) (c : ℝ)
    (himg : ∀ p q, image p q = c) (y : Fin rows) (x : Fin cols)
    (hy1 : 1 ≤ (y : ℕ)) (hy2 : (y : ℕ) + 1 < rows)
    (hx1 : 1 ≤ (x : ℕ)) (hx2 : (x : ℕ) + 1 < cols) :
    local_binary_pattern rows cols image 8 1 "default"
      = Except.ok ("int", fun p q => compute_lbp rows cols image 8 1 "default" p q)
    ∧ compute_lbp rows cols image 8 1 "default" y x = 255 := by
  constructor
  · rfl
  · have hbit : ∀ k, lbpSignedBit rows cols image 8 1 y x k = 1 := by
      intro k
      unfold lbpSignedBit
      rw [lbpSamples_flat rows cols image c himg y x hy1 hy2 hx1 hx2 k]
      norm_num
    unfold compute_lbp
    rw [if_neg (by decide :
      ¬(("default" : String) = "uniform" ∨ ("default" : String) = "var"))]
    simp only [if_neg (by decide : ¬("default" : String) = "ror")]
    have hsum : (∑ k ∈ Finset.range 8,
        lbpSignedBit rows cols image 8 1 y x k * 2 ^ k) = 255 := by
      rw [Finset.sum_congr rfl fun k _ => by rw [hbit k, one_mul]]
      decide
    rw [hsum]
    norm_num

/-- Witness for C9 on a constant 3x3 image at its center pixel. -/
theorem lbp_default_flat_witness :
    ((∀ p q : Fin 3, (fun (_ : Fin 3) (_ : Fin 3) => (7 : ℝ)) p q = 7)
      ∧ 1 ≤ ((1 : Fin 3) : ℕ) ∧ ((1 : Fin 3) : ℕ) + 1 < 3
      ∧ 1 ≤ ((1 : Fin 3) : ℕ) ∧ ((1 : Fin 3) : ℕ) + 1 < 3)
    ∧ (local_binary_pattern 3 3 (fun _ _ => (7 : ℝ)) 8 1 "default"
        = Except.ok ("int", fun p q => compute_lbp 3 3 (fun _ _ => (7 : ℝ)) 8 1 "default" p q)
      ∧ compute_lbp 3 3 (fun _ _ => (7 : ℝ)) 8 1 "default" 1 1 = 255) :=
  ⟨⟨fun _ _ => rfl, by decide, by decide, by decide, by decide⟩,
    lbp_default_flat 3 3 (fun _ _ => 7) 7 (fun _ _ => rfl) 1 1
      (by decide) (by decide) (by decide) (by decide)⟩

end SkimageTexture
